import Mathlib

/-!
Verification of the chess AI search engine (`evaluate_board`, `minimax_alpha_beta`,
`get_best_move`).  The rules engine (python-chess) is external to the program and is
modelled abstractly as a structure `Engine` providing exactly the interface the
program consumes: legal-move enumeration, `push`, side to move, terminal predicates
and piece counts.  Board mutation via `push`/`pop` is modelled functionally
(`push : Pos → Move → Pos`); a separate state-threaded embedding (`minimaxSt`,
`get_best_moveSt`) models the mutable board as the current position together with
the explicit undo stack that python-chess maintains, so that the stack discipline
of `push`/`pop` pairs can be stated and proved.

Scores are Python floats that only ever take integer values or the two infinities
`float('inf')` / `float('-inf')`, so they embed exactly as `WithBot (WithTop ℤ)`:
`⊥` is `-inf`, `⊤` is `+inf`, and comparisons, `max` and `min` agree with the
Python ones on this range.
-/

namespace ChessAI

/-- Score values: integers extended with `-inf` (`⊥`) and `+inf` (`⊤`),
exactly the values `evaluate_board` and the search produce. -/
abbrev Score : Type := WithBot (WithTop ℤ)

/-- Embedding of an integer score. -/
def Score.ofInt (z : ℤ) : Score := ((z : WithTop ℤ) : Score)

/-- The chess piece kinds (`chess.PAWN`, ..., `chess.KING`). -/
inductive PieceType where
  | pawn
  | knight
  | bishop
  | rook
  | queen
  | king
deriving DecidableEq, Repr

/-- The `piece_values` dictionary of `evaluate_board`. -/
def piece_values : PieceType → ℤ
  | .pawn => 1
  | .knight => 3
  | .bishop => 3
  | .rook => 5
  | .queen => 9
  | .king => 0

/-- Iteration order of the `piece_values` dict (Python dicts iterate in
insertion order). -/
def pieceTypeOrder : List PieceType :=
  [.pawn, .knight, .bishop, .rook, .queen, .king]

/-- The external rules engine contract consumed by the program (spec section 6).
`turn b = true` means White to move (`chess.WHITE = True` in python-chess);
`pieces b pt c` is `len(board.pieces(pt, c))` with `c = true` for White. -/
structure Engine where
  Pos : Type
  Move : Type
  legal_moves : Pos → List Move
  push : Pos → Move → Pos
  turn : Pos → Bool
  is_game_over : Pos → Bool
  is_checkmate : Pos → Bool
  is_stalemate : Pos → Bool
  is_insufficient_material : Pos → Bool
  pieces : Pos → PieceType → Bool → Nat

/-- The material sum loop of `evaluate_board`:
`value += len(pieces(pt, WHITE)) * v; value -= len(pieces(pt, BLACK)) * v`
over the piece kinds in dict order. -/
def materialValue (E : Engine) (b : E.Pos) : ℤ :=
  pieceTypeOrder.foldl
    (fun v pt =>
      v + (E.pieces b pt true : ℤ) * piece_values pt
        - (E.pieces b pt false : ℤ) * piece_values pt) 0

/-- `evaluate_board`: checkmate gives `+inf` when Black is to move and `-inf`
when White is to move; stalemate or insufficient material gives `0`; otherwise
the material balance. -/
def evaluate_board (E : Engine) (b : E.Pos) : Score :=
  if E.is_checkmate b then
    (if E.turn b = false then (⊤ : Score) else (⊥ : Score))
  else if E.is_stalemate b || E.is_insufficient_material b then
    Score.ofInt 0
  else
    Score.ofInt (materialValue E b)

/-- The maximizing loop body of `minimax_alpha_beta`: running best value,
`alpha = max(alpha, eval)` and `break` when `beta <= alpha`.  `f m a b` is the
recursive search of the child reached by `m` with window `(a, b)`. -/
def maxLoop {μ : Type _} {α : Type _} [LinearOrder α]
    (f : μ → α → α → α) : List μ → α → α → α → α
  | [], best, _, _ => best
  | m :: ms, best, a, b =>
    let ev := f m a b
    let best' := max best ev
    let a' := max a ev
    if b ≤ a' then best' else maxLoop f ms best' a' b

/-- The minimizing loop body of `minimax_alpha_beta`: running best value,
`beta = min(beta, eval)` and `break` when `beta <= alpha`. -/
def minLoop {μ : Type _} {α : Type _} [LinearOrder α]
    (f : μ → α → α → α) : List μ → α → α → α → α
  | [], best, _, _ => best
  | m :: ms, best, a, b =>
    let ev := f m a b
    let best' := min best ev
    let b' := min b ev
    if b' ≤ a then best' else minLoop f ms best' a b'

/-- `minimax_alpha_beta(board, depth, alpha, beta, is_maximizing)`.
Depth 0 or a game-over position evaluates the board; otherwise the maximizing
(resp. minimizing) loop runs over the legal moves, recursing with the role
flipped and depth decremented. -/
def minimax_alpha_beta (E : Engine) : Nat → E.Pos → Score → Score → Bool → Score
  | 0, b, _, _, _ => evaluate_board E b
  | depth + 1, b, alpha, beta, is_maximizing =>
    if E.is_game_over b then evaluate_board E b
    else if is_maximizing then
      maxLoop (fun m a bt => minimax_alpha_beta E depth (E.push b m) a bt false)
        (E.legal_moves b) ⊥ alpha beta
    else
      minLoop (fun m a bt => minimax_alpha_beta E depth (E.push b m) a bt true)
        (E.legal_moves b) ⊤ alpha beta

/-- Unpruned full minimax over the same game tree, used as the reference for the
alpha-beta equivalence claim: same terminal cases, but every child is visited and
folded with `max` / `min`. -/
def minimaxFull (E : Engine) : Nat → E.Pos → Bool → Score
  | 0, b, _ => evaluate_board E b
  | depth + 1, b, is_maximizing =>
    if E.is_game_over b then evaluate_board E b
    else if is_maximizing then
      (E.legal_moves b).foldl
        (fun acc m => max acc (minimaxFull E depth (E.push b m) false)) ⊥
    else
      (E.legal_moves b).foldl
        (fun acc m => min acc (minimaxFull E depth (E.push b m) true)) ⊤

/-- The score `get_best_move` computes for one root candidate move:
the board is pushed first, and `is_maximizing` for the child call is
`not board.turn` evaluated on the pushed board. -/
def rootEval (E : Engine) (b : E.Pos) (depth : Nat) (m : E.Move) : Score :=
  minimax_alpha_beta E (depth - 1) (E.push b m) ⊥ ⊤ (!E.turn (E.push b m))

/-- Initial `(best_move, max_eval)` state of `get_best_move`:
`max_eval = -inf` when White is to move, `+inf` when Black is. -/
def gbmInit (E : Engine) (b : E.Pos) : Option E.Move × Score :=
  (none, if E.turn b = true then (⊥ : Score) else (⊤ : Score))

/-- Loop body of `get_best_move`: strict improvement over the running
`max_eval` (direction chosen by the root side to move) replaces the tracked
move. -/
def gbmStep (E : Engine) (b : E.Pos) (depth : Nat)
    (st : Option E.Move × Score) (m : E.Move) : Option E.Move × Score :=
  let ev := rootEval E b depth m
  if E.turn b = true then
    if st.2 < ev then (some m, ev) else st
  else
    if ev < st.2 then (some m, ev) else st

/-- `get_best_move(board, depth)`.  `shuffled` is the randomly shuffled copy of
`list(board.legal_moves)`; theorems quantify over all permutations of the legal
move list. -/
def get_best_move (E : Engine) (b : E.Pos) (depth : Nat)
    (shuffled : List E.Move) : Option E.Move :=
  (shuffled.foldl (gbmStep E b depth) (gbmInit E b)).1

/-- Fuel-indexed variant of the maximizing loop: the recursive child search may
run out of fuel, in which case the whole loop reports `none`. -/
def maxLoopF {μ : Type _} {α : Type _} [LinearOrder α]
    (f : μ → α → α → Option α) : List μ → α → α → α → Option α
  | [], best, _, _ => some best
  | m :: ms, best, a, b =>
    match f m a b with
    | none => none
    | some ev =>
      let best' := max best ev
      let a' := max a ev
      if b ≤ a' then some best' else maxLoopF f ms best' a' b

/-- Fuel-indexed variant of the minimizing loop. -/
def minLoopF {μ : Type _} {α : Type _} [LinearOrder α]
    (f : μ → α → α → Option α) : List μ → α → α → α → Option α
  | [], best, _, _ => some best
  | m :: ms, best, a, b =>
    match f m a b with
    | none => none
    | some ev =>
      let best' := min best ev
      let b' := min b ev
      if b' ≤ a then some best' else minLoopF f ms best' a b'

/-- Fuel-indexed `minimax_alpha_beta`: the first argument counts recursive call
frames and is decremented on every call, independently of the program's `depth`
argument; a call with no fuel left answers `none`.  This makes the recursion
depth of the search an explicit, observable quantity. -/
def minimax_fuel (E : Engine) :
    Nat → Nat → E.Pos → Score → Score → Bool → Option Score
  | 0, _, _, _, _, _ => none
  | fuel + 1, depth, b, alpha, beta, is_maximizing =>
    if depth = 0 then some (evaluate_board E b)
    else if E.is_game_over b then some (evaluate_board E b)
    else if is_maximizing then
      maxLoopF (fun m a bt => minimax_fuel E fuel (depth - 1) (E.push b m) a bt false)
        (E.legal_moves b) ⊥ alpha beta
    else
      minLoopF (fun m a bt => minimax_fuel E fuel (depth - 1) (E.push b m) a bt true)
        (E.legal_moves b) ⊤ alpha beta

/-- The per-candidate score that the spec prescribes for the root scan:
`search` is called with the role flipped from the ROOT role, where the root
role is MAXIMIZING iff the root side to move is White (the evaluator's
maximizing color).  Compare `rootEval`, which is what the code computes. -/
def rootEvalFlipped (E : Engine) (b : E.Pos) (depth : Nat) (m : E.Move) : Score :=
  minimax_alpha_beta E (depth - 1) (E.push b m) ⊥ ⊤ (!E.turn b)

/-- Loop body of the spec's `chooseMove` root scan (flipped child role,
otherwise identical to `gbmStep`). -/
def gbmStepFlipped (E : Engine) (b : E.Pos) (depth : Nat)
    (st : Option E.Move × Score) (m : E.Move) : Option E.Move × Score :=
  let ev := rootEvalFlipped E b depth m
  if E.turn b = true then
    if st.2 < ev then (some m, ev) else st
  else
    if ev < st.2 then (some m, ev) else st

/-- The spec's `chooseMove` root scan, written from the spec's words: each
candidate is searched with depth−1, the role flipped from the root role, and
the full window. -/
def chooseMoveFlipped (E : Engine) (b : E.Pos) (depth : Nat)
    (shuffled : List E.Move) : Option E.Move :=
  (shuffled.foldl (gbmStepFlipped E b depth) (gbmInit E b)).1

/-- The mutable python-chess board, modelled as its current position together
with the explicit undo stack that `board.push` grows and `board.pop` shrinks. -/
def pushB (E : Engine) (s : E.Pos × List E.Pos) (m : E.Move) :
    E.Pos × List E.Pos :=
  (E.push s.1 m, s.1 :: s.2)

/-- `board.pop()`: restore the most recently pushed position.  (On an empty
stack python-chess raises; that path is unreachable in the program, and the
embedding leaves the state unchanged there.) -/
def popB (E : Engine) (s : E.Pos × List E.Pos) : E.Pos × List E.Pos :=
  match s with
  | (_, p :: stk) => (p, stk)
  | (c, []) => (c, [])

/-- State-threaded maximizing loop of `minimax_alpha_beta`: push, recurse on
the mutated board, pop, then update `max_eval`/`alpha` and possibly break.
The state is returned on both exit paths, including the pruning break. -/
def maxLoopSt (E : Engine)
    (f : E.Pos × List E.Pos → Score → Score → Score × (E.Pos × List E.Pos)) :
    List E.Move → Score → Score → Score → E.Pos × List E.Pos →
      Score × (E.Pos × List E.Pos)
  | [], best, _, _, s => (best, s)
  | m :: ms, best, a, b, s =>
    let r := f (pushB E s m) a b
    let s' := popB E r.2
    let best' := max best r.1
    let a' := max a r.1
    if b ≤ a' then (best', s') else maxLoopSt E f ms best' a' b s'

/-- State-threaded minimizing loop of `minimax_alpha_beta`. -/
def minLoopSt (E : Engine)
    (f : E.Pos × List E.Pos → Score → Score → Score × (E.Pos × List E.Pos)) :
    List E.Move → Score → Score → Score → E.Pos × List E.Pos →
      Score × (E.Pos × List E.Pos)
  | [], best, _, _, s => (best, s)
  | m :: ms, best, a, b, s =>
    let r := f (pushB E s m) a b
    let s' := popB E r.2
    let best' := min best r.1
    let b' := min b r.1
    if b' ≤ a then (best', s') else minLoopSt E f ms best' a b' s'

/-- State-threaded `minimax_alpha_beta` over the mutable board: every read and
recursive call goes through the threaded board state, so the push/pop pairing
of the code is visible in the returned state. -/
def minimaxSt (E : Engine) :
    Nat → E.Pos × List E.Pos → Score → Score → Bool →
      Score × (E.Pos × List E.Pos)
  | 0, s, _, _, _ => (evaluate_board E s.1, s)
  | depth + 1, s, alpha, beta, is_maximizing =>
    if E.is_game_over s.1 then (evaluate_board E s.1, s)
    else if is_maximizing then
      maxLoopSt E (fun t a bt => minimaxSt E depth t a bt false)
        (E.legal_moves s.1) ⊥ alpha beta s
    else
      minLoopSt E (fun t a bt => minimaxSt E depth t a bt true)
        (E.legal_moves s.1) ⊤ alpha beta s

/-- One iteration of the state-threaded `get_best_move` loop: push, search the
mutated board (reading `not board.turn` from the pushed board), pop, then
compare using the turn read back from the restored board. -/
def gbmStepSt (E : Engine) (depth : Nat)
    (st : (Option E.Move × Score) × (E.Pos × List E.Pos)) (m : E.Move) :
    (Option E.Move × Score) × (E.Pos × List E.Pos) :=
  let s1 := pushB E st.2 m
  let r := minimaxSt E (depth - 1) s1 ⊥ ⊤ (!E.turn s1.1)
  let s2 := popB E r.2
  let tracked :=
    if E.turn s2.1 = true then
      (if st.1.2 < r.1 then (some m, r.1) else st.1)
    else
      (if r.1 < st.1.2 then (some m, r.1) else st.1)
  (tracked, s2)

/-- State-threaded `get_best_move` over the mutable board. -/
def get_best_moveSt (E : Engine) (s : E.Pos × List E.Pos) (depth : Nat)
    (shuffled : List E.Move) : Option E.Move × (E.Pos × List E.Pos) :=
  let final := shuffled.foldl (gbmStepSt E depth)
    ((none, if E.turn s.1 = true then (⊥ : Score) else (⊤ : Score)), s)
  (final.1.1, final.2)

/-- Knuth-Moore fail-soft correctness relation: against true value `v` and
window `(a, b)`, a returned score `r` is exact strictly inside the window, an
upper bound on `v` when failing low, and a lower bound when failing high. -/
def KMprop {α : Type _} [LinearOrder α] (v a b r : α) : Prop :=
  (r ≤ a → v ≤ r) ∧ (a < r → r < b → r = v) ∧ (b ≤ r → r ≤ v)

/-- A small concrete instance of the rules-engine contract used to evaluate the
search on explicit inputs.  Positions are natural numbers:
`0` is a White-to-move root with two moves leading to Black-to-move positions
`1` and `2`; position `1` has replies to leaves worth `0` and `5`, position `2`
to leaves worth `3` and `4`.  Position `7` is a checkmate with White to move,
`8` a checkmate with Black to move, `9` a quiet middlegame position, `10` a
stalemate, `11` a game-over position that is none of checkmate, stalemate or
insufficient material (a seventy-five-move draw), and `12` is a White-to-move
root whose single move leads (position `13`) to a single Black reply that
checkmates White (position `14`). -/
abbrev CE : Engine where
  Pos := Nat
  Move := Nat
  legal_moves := fun p =>
    match p with
    | 0 => [0, 1]
    | 1 => [0, 1]
    | 2 => [0, 1]
    | 12 => [0]
    | 13 => [0]
    | _ => []
  push := fun p m =>
    match p, m with
    | 0, 0 => 1
    | 0, 1 => 2
    | 1, 0 => 3
    | 1, 1 => 4
    | 2, 0 => 5
    | 2, 1 => 6
    | 12, 0 => 13
    | 13, 0 => 14
    | _, _ => 99
  turn := fun p =>
    match p with
    | 1 => false
    | 2 => false
    | 8 => false
    | 13 => false
    | _ => true
  is_game_over := fun p =>
    match p with
    | 7 => true
    | 8 => true
    | 11 => true
    | 14 => true
    | _ => false
  is_checkmate := fun p =>
    match p with
    | 7 => true
    | 8 => true
    | 14 => true
    | _ => false
  is_stalemate := fun p =>
    match p with
    | 10 => true
    | _ => false
  is_insufficient_material := fun _ => false
  pieces := fun p pt c =>
    match p, pt, c with
    | 4, .rook, true => 1
    | 5, .knight, true => 1
    | 6, .pawn, true => 4
    | 9, .pawn, true => 2
    | 9, .queen, true => 1
    | 9, .rook, false => 1
    | 11, .pawn, true => 2
    | _, _, _ => 0

example : evaluate_board CE 3 = Score.ofInt 0 := by decide
example : evaluate_board CE 4 = Score.ofInt 5 := by decide
example : evaluate_board CE 7 = (⊥ : Score) := by decide
example : evaluate_board CE 8 = (⊤ : Score) := by decide
example : evaluate_board CE 9 = Score.ofInt 6 := by decide
example : evaluate_board CE 10 = Score.ofInt 0 := by decide
example : evaluate_board CE 11 = Score.ofInt 2 := by decide
example : evaluate_board CE 14 = (⊥ : Score) := by decide

example : minimax_alpha_beta CE 1 1 ⊥ ⊤ true = Score.ofInt 5 := by decide
example : minimax_alpha_beta CE 1 1 ⊥ ⊤ false = Score.ofInt 0 := by decide
example : minimax_alpha_beta CE 2 0 ⊥ ⊤ true = Score.ofInt 3 := by decide

example : get_best_move CE 0 2 [0, 1] = some 0 := by decide
example : chooseMoveFlipped CE 0 2 [0, 1] = some 1 := by decide
example : get_best_move CE 12 2 [0] = none := by decide

/-- Claim C5: on every checkmate position, `evaluate_board` returns the extreme
score favoring the side not to move: `+inf` (`⊤`) when the side to move is
Black, `-inf` (`⊥`) when the side to move is White. -/
theorem evaluate_board_checkmate (E : Engine) (b : E.Pos)
    (h : E.is_checkmate b = true) :
    (E.turn b = false → evaluate_board E b = (⊤ : Score)) ∧
    (E.turn b = true → evaluate_board E b = (⊥ : Score)) := by
  constructor <;> intro ht <;> simp [evaluate_board, h, ht]

/-- Witness for C5 on the two concrete checkmate positions of `CE`:
position `8` has Black to move (score `+inf`), position `7` has White to move
(score `-inf`). -/
theorem evaluate_board_checkmate_witness :
    CE.is_checkmate 8 = true ∧ CE.turn 8 = false ∧
      evaluate_board CE 8 = (⊤ : Score) ∧
    CE.is_checkmate 7 = true ∧ CE.turn 7 = true ∧
      evaluate_board CE 7 = (⊥ : Score) :=
  ⟨by decide, by decide,
    (evaluate_board_checkmate CE 8 (by decide)).1 (by decide),
    by decide, by decide,
    (evaluate_board_checkmate CE 7 (by decide)).2 (by decide)⟩

/-- Claim C6: on every position that is not checkmate, `evaluate_board` returns
the zero score when the position is stalemate or drawn by insufficient
material, and otherwise the material balance: the sum over piece kinds of
(White count minus Black count) times the weights pawn=1, knight=3, bishop=3,
rook=5, queen=9, king=0. -/
theorem evaluate_board_not_checkmate (E : Engine) (b : E.Pos)
    (h : E.is_checkmate b = false) :
    (E.is_stalemate b = true ∨ E.is_insufficient_material b = true →
      evaluate_board E b = Score.ofInt 0) ∧
    (E.is_stalemate b = false → E.is_insufficient_material b = false →
      evaluate_board E b = Score.ofInt
        (((E.pieces b .pawn true : ℤ) - (E.pieces b .pawn false : ℤ)) * 1 +
         ((E.pieces b .knight true : ℤ) - (E.pieces b .knight false : ℤ)) * 3 +
         ((E.pieces b .bishop true : ℤ) - (E.pieces b .bishop false : ℤ)) * 3 +
         ((E.pieces b .rook true : ℤ) - (E.pieces b .rook false : ℤ)) * 5 +
         ((E.pieces b .queen true : ℤ) - (E.pieces b .queen false : ℤ)) * 9 +
         ((E.pieces b .king true : ℤ) - (E.pieces b .king false : ℤ)) * 0)) := by
  constructor
  · rintro (hs | hs) <;> simp [evaluate_board, h, hs]
  · intro hs hi
    have hm : evaluate_board E b = Score.ofInt (materialValue E b) := by
      simp [evaluate_board, h, hs, hi]
    rw [hm]
    congr 1
    simp only [materialValue, pieceTypeOrder, List.foldl, piece_values]
    ring

/-- Witness for C6 on concrete positions of `CE`: the stalemate position `10`
scores zero, and the quiet position `9` (two White pawns and a queen against a
Black rook) scores its material balance `6`. -/
theorem evaluate_board_not_checkmate_witness :
    CE.is_checkmate 10 = false ∧ CE.is_stalemate 10 = true ∧
      evaluate_board CE 10 = Score.ofInt 0 ∧
    CE.is_checkmate 9 = false ∧ CE.is_stalemate 9 = false ∧
      CE.is_insufficient_material 9 = false ∧
      evaluate_board CE 9 = Score.ofInt
        (((CE.pieces 9 .pawn true : ℤ) - (CE.pieces 9 .pawn false : ℤ)) * 1 +
         ((CE.pieces 9 .knight true : ℤ) - (CE.pieces 9 .knight false : ℤ)) * 3 +
         ((CE.pieces 9 .bishop true : ℤ) - (CE.pieces 9 .bishop false : ℤ)) * 3 +
         ((CE.pieces 9 .rook true : ℤ) - (CE.pieces 9 .rook false : ℤ)) * 5 +
         ((CE.pieces 9 .queen true : ℤ) - (CE.pieces 9 .queen false : ℤ)) * 9 +
         ((CE.pieces 9 .king true : ℤ) - (CE.pieces 9 .king false : ℤ)) * 0) :=
  ⟨by decide, by decide,
    (evaluate_board_not_checkmate CE 10 (by decide)).1 (Or.inl (by decide)),
    by decide, by decide, by decide,
    (evaluate_board_not_checkmate CE 9 (by decide)).2 (by decide) (by decide)⟩

/-- Claim C7: `minimax_alpha_beta` called with depth `0` returns exactly
`evaluate_board` of the position, for every window and both roles. -/
theorem minimax_alpha_beta_depth_zero (E : Engine) (b : E.Pos)
    (alpha beta : Score) (is_maximizing : Bool) :
    minimax_alpha_beta E 0 b alpha beta is_maximizing = evaluate_board E b := rfl

/-- Claim C10: on a position the rules engine reports as game over but that is
neither checkmate, nor stalemate, nor drawn by insufficient material (for
example a seventy-five-move draw), `evaluate_board` falls through to the
material balance, and `minimax_alpha_beta` returns that same material score
there at every depth, window and role. -/
theorem evaluate_board_other_terminal (E : Engine) (b : E.Pos)
    (hover : E.is_game_over b = true) (hcm : E.is_checkmate b = false)
    (hsm : E.is_stalemate b = false) (him : E.is_insufficient_material b = false) :
    evaluate_board E b = Score.ofInt (materialValue E b) ∧
    ∀ (d : Nat) (alpha beta : Score) (is_maximizing : Bool),
      minimax_alpha_beta E d b alpha beta is_maximizing =
        Score.ofInt (materialValue E b) := by
  have hev : evaluate_board E b = Score.ofInt (materialValue E b) := by
    simp [evaluate_board, hcm, hsm, him]
  refine ⟨hev, fun d alpha beta is_maximizing => ?_⟩
  cases d with
  | zero => exact hev
  | succ d => simp [minimax_alpha_beta, hover, hev]

/-- Witness for C10 at the concrete seventy-five-move-style terminal position
`11` of `CE`, whose material balance is `2` (checked at depth `3`). -/
theorem evaluate_board_other_terminal_witness :
    CE.is_game_over 11 = true ∧ CE.is_checkmate 11 = false ∧
    CE.is_stalemate 11 = false ∧ CE.is_insufficient_material 11 = false ∧
    evaluate_board CE 11 = Score.ofInt (materialValue CE 11) ∧
    minimax_alpha_beta CE 3 11 ⊥ ⊤ true = Score.ofInt (materialValue CE 11) :=
  ⟨by decide, by decide, by decide, by decide,
    (evaluate_board_other_terminal CE 11 (by decide) (by decide) (by decide)
      (by decide)).1,
    (evaluate_board_other_terminal CE 11 (by decide) (by decide) (by decide)
      (by decide)).2 3 ⊥ ⊤ true⟩

theorem maxLoopF_eq {μ : Type _} {α : Type _} [LinearOrder α]
    (f : μ → α → α → Option α) (g : μ → α → α → α)
    (hf : ∀ m a b, f m a b = some (g m a b)) :
    ∀ (ms : List μ) (best a b : α),
      maxLoopF f ms best a b = some (maxLoop g ms best a b) := by
  intro ms
  induction ms with
  | nil => intro best a b; rfl
  | cons m ms ih =>
    intro best a b
    simp only [maxLoopF, maxLoop, hf m a b]
    by_cases hb : b ≤ max a (g m a b)
    · simp [hb]
    · simp [hb, ih]

theorem minLoopF_eq {μ : Type _} {α : Type _} [LinearOrder α]
    (f : μ → α → α → Option α) (g : μ → α → α → α)
    (hf : ∀ m a b, f m a b = some (g m a b)) :
    ∀ (ms : List μ) (best a b : α),
      minLoopF f ms best a b = some (minLoop g ms best a b) := by
  intro ms
  induction ms with
  | nil => intro best a b; rfl
  | cons m ms ih =>
    intro best a b
    simp only [minLoopF, minLoop, hf m a b]
    by_cases hb : min b (g m a b) ≤ a
    · simp [hb]
    · simp [hb, ih]

/-- Claim C9: the search terminates for every non-negative depth because depth
decrements by exactly 1 per ply and depth 0 evaluates without expanding: fuel
`d + 1` (one call frame per remaining ply plus the root frame) always suffices
for the fuel-indexed search to answer, and its answer is the total function
`minimax_alpha_beta`. -/
theorem minimax_fuel_terminates (E : Engine) :
    ∀ (d : Nat) (b : E.Pos) (alpha beta : Score) (is_maximizing : Bool),
      minimax_fuel E (d + 1) d b alpha beta is_maximizing =
        some (minimax_alpha_beta E d b alpha beta is_maximizing) := by
  intro d
  induction d with
  | zero => intro b alpha beta is_maximizing; rfl
  | succ d ih =>
    intro b alpha beta is_maximizing
    simp only [minimax_fuel, minimax_alpha_beta, Nat.succ_ne_zero, if_false,
      Nat.add_sub_cancel]
    by_cases hover : E.is_game_over b
    · simp [hover]
    · cases is_maximizing with
      | false =>
        simp only [hover, if_false, Bool.false_eq_true]
        exact minLoopF_eq _ _ (fun m a bt => ih (E.push b m) a bt true) _ ⊤ alpha beta
      | true =>
        simp only [hover, if_false, if_true]
        exact maxLoopF_eq _ _ (fun m a bt => ih (E.push b m) a bt false) _ ⊥ alpha beta


theorem maxLoopSt_state (E : Engine)
    (f : E.Pos × List E.Pos → Score → Score → Score × (E.Pos × List E.Pos))
    (hf : ∀ t a bt, (f t a bt).2 = t) :
    ∀ (ms : List E.Move) (best a b : Score) (s : E.Pos × List E.Pos),
      (maxLoopSt E f ms best a b s).2 = s := by
  intro ms
  induction ms with
  | nil => intro best a b s; rfl
  | cons m ms ih =>
    intro best a b s
    simp only [maxLoopSt, hf (pushB E s m) a b]
    have hpop : popB E (pushB E s m) = s := rfl
    rw [hpop]
    by_cases hb : b ≤ max a (f (pushB E s m) a b).1
    · simp [hb]
    · simp [hb, ih]

theorem minLoopSt_state (E : Engine)
    (f : E.Pos × List E.Pos → Score → Score → Score × (E.Pos × List E.Pos))
    (hf : ∀ t a bt, (f t a bt).2 = t) :
    ∀ (ms : List E.Move) (best a b : Score) (s : E.Pos × List E.Pos),
      (minLoopSt E f ms best a b s).2 = s := by
  intro ms
  induction ms with
  | nil => intro best a b s; rfl
  | cons m ms ih =>
    intro best a b s
    simp only [minLoopSt, hf (pushB E s m) a b]
    have hpop : popB E (pushB E s m) = s := rfl
    rw [hpop]
    by_cases hb : min b (f (pushB E s m) a b).1 ≤ a
    · simp [hb]
    · simp [hb, ih]

theorem minimaxSt_state (E : Engine) :
    ∀ (d : Nat) (s : E.Pos × List E.Pos) (alpha beta : Score)
      (is_maximizing : Bool),
      (minimaxSt E d s alpha beta is_maximizing).2 = s := by
  intro d
  induction d with
  | zero => intro s alpha beta is_maximizing; rfl
  | succ d ih =>
    intro s alpha beta is_maximizing
    simp only [minimaxSt]
    by_cases hover : E.is_game_over s.1
    · simp [hover]
    · cases is_maximizing with
      | false =>
        simp only [hover, if_false, Bool.false_eq_true]
        exact minLoopSt_state E _ (fun t a bt => ih t a bt true) _ ⊤ alpha beta s
      | true =>
        simp only [hover, if_false, if_true]
        exact maxLoopSt_state E _ (fun t a bt => ih t a bt false) _ ⊥ alpha beta s

theorem gbmStepSt_state (E : Engine) (depth : Nat)
    (st : (Option E.Move × Score) × (E.Pos × List E.Pos)) (m : E.Move) :
    (gbmStepSt E depth st m).2 = st.2 := by
  simp only [gbmStepSt,
    minimaxSt_state E (depth - 1) (pushB E st.2 m) ⊥ ⊤ (!E.turn (pushB E st.2 m).1)]
  rfl

theorem gbmFoldSt_state (E : Engine) (depth : Nat) :
    ∀ (shuffled : List E.Move)
      (st : (Option E.Move × Score) × (E.Pos × List E.Pos)),
      (shuffled.foldl (gbmStepSt E depth) st).2 = st.2 := by
  intro shuffled
  induction shuffled with
  | nil => intro st; rfl
  | cons m ms ih =>
    intro st
    rw [List.foldl_cons, ih, gbmStepSt_state]

theorem maxLoopSt_score (E : Engine) (s : E.Pos × List E.Pos)
    (f : E.Pos × List E.Pos → Score → Score → Score × (E.Pos × List E.Pos))
    (g : E.Move → Score → Score → Score)
    (hf2 : ∀ t a bt, (f t a bt).2 = t)
    (hf1 : ∀ m a bt, (f (pushB E s m) a bt).1 = g m a bt) :
    ∀ (ms : List E.Move) (best a b : Score),
      (maxLoopSt E f ms best a b s).1 = maxLoop g ms best a b := by
  intro ms
  induction ms with
  | nil => intro best a b; rfl
  | cons m ms ih =>
    intro best a b
    simp only [maxLoopSt, maxLoop, hf2 (pushB E s m) a b, hf1 m a b]
    have hpop : popB E (pushB E s m) = s := rfl
    rw [hpop]
    by_cases hb : b ≤ max a (g m a b)
    · simp [hb]
    · simp [hb, ih]

theorem minLoopSt_score (E : Engine) (s : E.Pos × List E.Pos)
    (f : E.Pos × List E.Pos → Score → Score → Score × (E.Pos × List E.Pos))
    (g : E.Move → Score → Score → Score)
    (hf2 : ∀ t a bt, (f t a bt).2 = t)
    (hf1 : ∀ m a bt, (f (pushB E s m) a bt).1 = g m a bt) :
    ∀ (ms : List E.Move) (best a b : Score),
      (minLoopSt E f ms best a b s).1 = minLoop g ms best a b := by
  intro ms
  induction ms with
  | nil => intro best a b; rfl
  | cons m ms ih =>
    intro best a b
    simp only [minLoopSt, minLoop, hf2 (pushB E s m) a b, hf1 m a b]
    have hpop : popB E (pushB E s m) = s := rfl
    rw [hpop]
    by_cases hb : min b (g m a b) ≤ a
    · simp [hb]
    · simp [hb, ih]

/-- The state-threaded search computes the same score as the purely functional
embedding: the mutate-and-undo code and the value-passing model agree. -/
theorem minimaxSt_score (E : Engine) :
    ∀ (d : Nat) (s : E.Pos × List E.Pos) (alpha beta : Score)
      (is_maximizing : Bool),
      (minimaxSt E d s alpha beta is_maximizing).1 =
        minimax_alpha_beta E d s.1 alpha beta is_maximizing := by
  intro d
  induction d with
  | zero => intro s alpha beta is_maximizing; rfl
  | succ d ih =>
    intro s alpha beta is_maximizing
    simp only [minimaxSt, minimax_alpha_beta]
    by_cases hover : E.is_game_over s.1
    · simp [hover]
    · cases is_maximizing with
      | false =>
        simp only [hover, if_false, Bool.false_eq_true]
        exact minLoopSt_score E s _ _
          (fun t a bt => minimaxSt_state E d t a bt true)
          (fun m a bt => ih (pushB E s m) a bt true) _ ⊤ alpha beta
      | true =>
        simp only [hover, if_false, if_true]
        exact maxLoopSt_score E s _ _
          (fun t a bt => minimaxSt_state E d t a bt false)
          (fun m a bt => ih (pushB E s m) a bt false) _ ⊥ alpha beta

theorem gbmStepSt_score (E : Engine) (depth : Nat)
    (st : (Option E.Move × Score) × (E.Pos × List E.Pos)) (m : E.Move) :
    (gbmStepSt E depth st m).1 = gbmStep E st.2.1 depth st.1 m := by
  simp only [gbmStepSt, gbmStep, rootEval,
    minimaxSt_state E (depth - 1) (pushB E st.2 m) ⊥ ⊤ (!E.turn (pushB E st.2 m).1),
    minimaxSt_score E (depth - 1) (pushB E st.2 m) ⊥ ⊤ (!E.turn (pushB E st.2 m).1)]
  rfl

/-- The state-threaded root scan returns the same move as the purely
functional `get_best_move`. -/
theorem get_best_moveSt_score (E : Engine) (s : E.Pos × List E.Pos)
    (depth : Nat) (shuffled : List E.Move) :
    (get_best_moveSt E s depth shuffled).1 = get_best_move E s.1 depth shuffled := by
  show (shuffled.foldl (gbmStepSt E depth) ((_, _), s)).1.1 = _
  unfold get_best_move
  have key : ∀ (ms : List E.Move)
      (st : (Option E.Move × Score) × (E.Pos × List E.Pos)), st.2 = s →
      (ms.foldl (gbmStepSt E depth) st).1 =
        ms.foldl (gbmStep E s.1 depth) st.1 := by
    intro ms
    induction ms with
    | nil => intro st hst; rfl
    | cons m ms ih =>
      intro st hst
      rw [List.foldl_cons, List.foldl_cons,
        ih (gbmStepSt E depth st m) (by rw [gbmStepSt_state, hst]),
        gbmStepSt_score, hst]
  exact congrArg Prod.fst
    (key shuffled ((none, if E.turn s.1 = true then ⊥ else ⊤), s) rfl) ▸ rfl

/-- Claim C8: both the search and the root move scan leave the board in its
original state when they return: every push is matched by exactly one pop, in
stack discipline, on every exit path including pruning breaks, so no mutation
leaks to the caller.  The state component (current position and undo stack) of
the threaded embeddings is returned unchanged. -/
theorem search_restores_position (E : Engine) (d : Nat)
    (s : E.Pos × List E.Pos) (alpha beta : Score) (is_maximizing : Bool)
    (depth : Nat) (shuffled : List E.Move) :
    (minimaxSt E d s alpha beta is_maximizing).2 = s ∧
    (get_best_moveSt E s depth shuffled).2 = s :=
  ⟨minimaxSt_state E d s alpha beta is_maximizing,
    gbmFoldSt_state E depth shuffled _⟩

section KnuthMoore

variable {μ : Type _} {α : Type _} [LinearOrder α]

theorem foldl_max_mono (g : μ → α) :
    ∀ (l : List μ) (x y : α), x ≤ y →
      l.foldl (fun acc m => max acc (g m)) x ≤
        l.foldl (fun acc m => max acc (g m)) y := by
  intro l
  induction l with
  | nil => intro x y h; exact h
  | cons m l ih => intro x y h; exact ih _ _ (max_le_max h le_rfl)

theorem le_foldl_max (g : μ → α) :
    ∀ (l : List μ) (x : α), x ≤ l.foldl (fun acc m => max acc (g m)) x := by
  intro l
  induction l with
  | nil => intro x; exact le_rfl
  | cons m l ih => intro x; exact le_trans (le_max_left x (g m)) (ih _)

theorem foldl_max_cut (g : μ → α) :
    ∀ (l : List μ) (x c : α),
      l.foldl (fun acc m => max acc (g m)) (max x c) ≤
        max (l.foldl (fun acc m => max acc (g m)) x) c := by
  intro l
  induction l with
  | nil => intro x c; exact le_rfl
  | cons m l ih =>
    intro x c
    have h1 : max (max x c) (g m) = max (max x (g m)) c := by
      rw [max_assoc, max_comm c (g m), ← max_assoc]
    calc l.foldl (fun acc m => max acc (g m)) (max (max x c) (g m))
        = l.foldl (fun acc m => max acc (g m)) (max (max x (g m)) c) := by rw [h1]
      _ ≤ max (l.foldl (fun acc m => max acc (g m)) (max x (g m))) c := ih _ _

theorem foldl_min_mono (g : μ → α) :
    ∀ (l : List μ) (x y : α), x ≤ y →
      l.foldl (fun acc m => min acc (g m)) x ≤
        l.foldl (fun acc m => min acc (g m)) y := by
  intro l
  induction l with
  | nil => intro x y h; exact h
  | cons m l ih => intro x y h; exact ih _ _ (min_le_min h le_rfl)

theorem foldl_min_le (g : μ → α) :
    ∀ (l : List μ) (x : α), l.foldl (fun acc m => min acc (g m)) x ≤ x := by
  intro l
  induction l with
  | nil => intro x; exact le_rfl
  | cons m l ih => intro x; exact le_trans (ih _) (min_le_left x (g m))

theorem foldl_min_cut (g : μ → α) :
    ∀ (l : List μ) (x c : α),
      min (l.foldl (fun acc m => min acc (g m)) x) c ≤
        l.foldl (fun acc m => min acc (g m)) (min x c) := by
  intro l
  induction l with
  | nil => intro x c; exact le_rfl
  | cons m l ih =>
    intro x c
    have h1 : min (min x c) (g m) = min (min x (g m)) c := by
      rw [min_assoc, min_comm c (g m), ← min_assoc]
    calc min (l.foldl (fun acc m => min acc (g m)) (min x (g m))) c
        ≤ l.foldl (fun acc m => min acc (g m)) (min (min x (g m)) c) := ih _ _
      _ = l.foldl (fun acc m => min acc (g m)) (min (min x c) (g m)) := by rw [h1]

/-- Main loop invariant for the maximizing alpha-beta loop: if each child
search satisfies the Knuth-Moore relation against its true value `g m` on
every window, then the loop over `ms`, started with running best `best ≤ a`,
satisfies the Knuth-Moore relation against the unpruned folded maximum. -/
theorem maxLoop_KM (g : μ → α) (f : μ → α → α → α) :
    ∀ (ms : List μ),
      (∀ m ∈ ms, ∀ a b, a < b → KMprop (g m) a b (f m a b)) →
      ∀ (best a b : α), best ≤ a → a < b →
        KMprop (ms.foldl (fun acc m => max acc (g m)) best) a b
          (maxLoop f ms best a b) := by
  intro ms
  induction ms with
  | nil =>
    intro _ best a b _ _
    exact ⟨fun _ => le_rfl, fun _ _ => rfl, fun _ => le_rfl⟩
  | cons m ms ih =>
    intro hf best a b hba hab
    have KMev := hf m (List.mem_cons_self m ms) a b hab
    simp only [maxLoop, List.foldl_cons]
    set ev := f m a b with hev_def
    by_cases hbr : b ≤ max a ev
    · -- pruning break: the loop returns max best ev
      rw [if_pos hbr]
      have hbev : b ≤ ev := by
        rcases le_max_iff.mp hbr with h | h
        · exact absurd h (not_le_of_lt hab)
        · exact h
      have hevle : ev ≤ g m := KMev.2.2 hbev
      have hr : max best ev = ev :=
        max_eq_right (le_trans hba (le_of_lt (lt_of_lt_of_le hab hbev)))
      rw [hr]
      refine ⟨?_, ?_, ?_⟩
      · intro h; exact absurd (le_trans hbev h) (not_le_of_lt hab)
      · intro _ h2; exact absurd hbev (not_le_of_lt h2)
      · intro _
        exact le_trans hevle
          (le_trans (le_max_right best (g m)) (le_foldl_max g ms _))
    · -- no break: recurse with updated best and alpha
      rw [if_neg hbr]
      have ha'b : max a ev < b := not_le.mp hbr
      have hba' : max best ev ≤ max a ev := max_le_max hba le_rfl
      have KM' := ih (fun m' hm' => hf m' (List.mem_cons_of_mem m hm'))
        (max best ev) (max a ev) b hba' ha'b
      have hevb : ev < b := lt_of_le_of_lt (le_max_right a ev) ha'b
      rcases le_or_lt ev a with hlow | hmid
      · -- child failed low: g m ≤ ev ≤ a, alpha unchanged
        have hgm : g m ≤ ev := KMev.1 hlow
        rw [max_eq_left hlow] at KM' ⊢
        have hWW' : ms.foldl (fun acc m => max acc (g m)) (max best (g m)) ≤
            ms.foldl (fun acc m => max acc (g m)) (max best ev) :=
          foldl_max_mono g ms _ _ (max_le_max le_rfl hgm)
        have hcut : ms.foldl (fun acc m => max acc (g m)) (max best ev) ≤
            max (ms.foldl (fun acc m => max acc (g m)) (max best (g m))) ev := by
          have h1 : max best ev ≤ max (max best (g m)) ev :=
            max_le_max (le_max_left best (g m)) le_rfl
          exact le_trans (foldl_max_mono g ms _ _ h1) (foldl_max_cut g ms _ _)
        refine ⟨?_, ?_, ?_⟩
        · intro h; exact le_trans hWW' (KM'.1 h)
        · intro h1 h2
          have hrW' := KM'.2.1 h1 h2
          have hrcut : maxLoop f ms (max best ev) a b ≤
              max (ms.foldl (fun acc m => max acc (g m)) (max best (g m))) ev := by
            rw [hrW']; exact hcut
          rcases le_max_iff.mp hrcut with h | h
          · refine le_antisymm h ?_
            rw [hrW']; exact hWW'
          · exact absurd h1 (not_lt_of_le (le_trans h hlow))
        · intro h
          have hrW' := KM'.2.2 h
          rcases le_max_iff.mp (le_trans hrW' hcut) with hc | hc
          · exact hc
          · exact absurd (le_trans h (le_trans hc hlow)) (not_le_of_lt hab)
      · -- child score strictly inside the window: it is exact
        have hgm : ev = g m := KMev.2.1 hmid hevb
        have hagm : a < g m := by rw [← hgm]; exact hmid
        rw [max_eq_right (le_of_lt hmid), hgm] at KM' ⊢
        have hevW : g m ≤ ms.foldl (fun acc m => max acc (g m)) (max best (g m)) :=
          le_trans (le_max_right best (g m)) (le_foldl_max g ms _)
        refine ⟨?_, ?_, ?_⟩
        · intro h; exact KM'.1 (le_trans h (le_of_lt hagm))
        · intro _ h2
          rcases le_or_lt (maxLoop f ms (max best (g m)) (g m) b) (g m) with hr1 | hr1
          · exact le_antisymm (le_trans hr1 hevW) (KM'.1 hr1)
          · exact KM'.2.1 hr1 h2
        · intro h; exact KM'.2.2 h

/-- Dual loop invariant for the minimizing alpha-beta loop. -/
theorem minLoop_KM (g : μ → α) (f : μ → α → α → α) :
    ∀ (ms : List μ),
      (∀ m ∈ ms, ∀ a b, a < b → KMprop (g m) a b (f m a b)) →
      ∀ (best a b : α), b ≤ best → a < b →
        KMprop (ms.foldl (fun acc m => min acc (g m)) best) a b
          (minLoop f ms best a b) := by
  intro ms
  induction ms with
  | nil =>
    intro _ best a b _ _
    exact ⟨fun _ => le_rfl, fun _ _ => rfl, fun _ => le_rfl⟩
  | cons m ms ih =>
    intro hf best a b hbb hab
    have KMev := hf m (List.mem_cons_self m ms) a b hab
    simp only [minLoop, List.foldl_cons]
    set ev := f m a b with hev_def
    by_cases hbr : min b ev ≤ a
    · -- pruning break: the loop returns min best ev
      rw [if_pos hbr]
      have haev : ev ≤ a := by
        rcases min_le_iff.mp hbr with h | h
        · exact absurd h (not_le_of_lt hab)
        · exact h
      have hevge : g m ≤ ev := KMev.1 haev
      have hr : min best ev = ev :=
        min_eq_right (le_trans (le_of_lt (lt_of_le_of_lt haev hab)) hbb)
      rw [hr]
      refine ⟨?_, ?_, ?_⟩
      · intro _
        exact le_trans (foldl_min_le g ms _)
          (le_trans (min_le_right best (g m)) hevge)
      · intro h1 _; exact absurd haev (not_le_of_lt h1)
      · intro h; exact absurd (le_trans h haev) (not_le_of_lt hab)
    · -- no break: recurse with updated best and beta
      rw [if_neg hbr]
      have hab' : a < min b ev := not_le.mp hbr
      have hbb' : min b ev ≤ min best ev := min_le_min hbb le_rfl
      have KM' := ih (fun m' hm' => hf m' (List.mem_cons_of_mem m hm'))
        (min best ev) a (min b ev) hbb' hab'
      have haev : a < ev := lt_of_lt_of_le hab' (min_le_right b ev)
      rcases le_or_lt b ev with hhigh | hmid
      · -- child failed high: b ≤ ev ≤ g m, beta unchanged
        have hgm : ev ≤ g m := KMev.2.2 hhigh
        rw [min_eq_left hhigh] at KM' ⊢
        have hWW' : ms.foldl (fun acc m => min acc (g m)) (min best ev) ≤
            ms.foldl (fun acc m => min acc (g m)) (min best (g m)) :=
          foldl_min_mono g ms _ _ (min_le_min le_rfl hgm)
        have hcut : min (ms.foldl (fun acc m => min acc (g m)) (min best (g m))) ev ≤
            ms.foldl (fun acc m => min acc (g m)) (min best ev) := by
          have h1 : min (min best (g m)) ev ≤ min best ev :=
            min_le_min (min_le_left best (g m)) le_rfl
          exact le_trans (foldl_min_cut g ms _ _) (foldl_min_mono g ms _ _ h1)
        refine ⟨?_, ?_, ?_⟩
        · intro h
          have hW'r := KM'.1 h
          rcases le_total (ms.foldl (fun acc m => min acc (g m)) (min best (g m)))
              ev with hc | hc
          · exact le_trans (by rw [← min_eq_left hc]; exact hcut) hW'r
          · have hevr : ev ≤ minLoop f ms (min best ev) a b :=
              le_trans (le_trans (le_of_eq (min_eq_right hc).symm) hcut) hW'r
            exact absurd (le_trans hhigh (le_trans hevr h)) (not_le_of_lt hab)
        · intro h1 h2
          have hrW' := KM'.2.1 h1 h2
          rcases le_total (ms.foldl (fun acc m => min acc (g m)) (min best (g m)))
              ev with hc | hc
          · refine le_antisymm ?_ ?_
            · rw [hrW']; exact hWW'
            · rw [hrW', ← min_eq_left hc]; exact hcut
          · have hevW' : ev ≤ ms.foldl (fun acc m => min acc (g m)) (min best ev) :=
              le_trans (le_of_eq (min_eq_right hc).symm) hcut
            exact absurd h2 (not_lt_of_le (le_trans hhigh (by rw [hrW']; exact hevW')))
        · intro h
          exact le_trans (KM'.2.2 h) hWW'
      · -- child score strictly inside the window: it is exact
        have hgm : ev = g m := KMev.2.1 haev hmid
        have hgmb : g m < b := by rw [← hgm]; exact hmid
        rw [min_eq_right (le_of_lt hmid), hgm] at KM' ⊢
        have hWev : ms.foldl (fun acc m => min acc (g m)) (min best (g m)) ≤ g m :=
          le_trans (foldl_min_le g ms _) (min_le_right best (g m))
        refine ⟨?_, ?_, ?_⟩
        · intro h; exact KM'.1 h
        · intro h1 _
          rcases le_or_lt (g m) (minLoop f ms (min best (g m)) a (g m)) with hr1 | hr1
          · exact le_antisymm (KM'.2.2 hr1) (le_trans hWev hr1)
          · exact KM'.2.1 h1 hr1
        · intro h; exact KM'.2.2 (le_trans (le_of_lt hgmb) h)

end KnuthMoore

/-- Node-level Knuth-Moore correctness: for every window with `alpha < beta`,
the pruned search result stands in the Knuth-Moore relation to the unpruned
minimax value of the same node. -/
theorem minimax_alpha_beta_KM (E : Engine) :
    ∀ (d : Nat) (b : E.Pos) (a bt : Score), a < bt → ∀ (is_maximizing : Bool),
      KMprop (minimaxFull E d b is_maximizing) a bt
        (minimax_alpha_beta E d b a bt is_maximizing) := by
  intro d
  induction d with
  | zero =>
    intro b a bt _ is_maximizing
    exact ⟨fun _ => le_rfl, fun _ _ => rfl, fun _ => le_rfl⟩
  | succ d ih =>
    intro b a bt hab is_maximizing
    simp only [minimax_alpha_beta, minimaxFull]
    by_cases hover : E.is_game_over b
    · simp only [hover, if_true]
      exact ⟨fun _ => le_rfl, fun _ _ => rfl, fun _ => le_rfl⟩
    · cases is_maximizing with
      | true =>
        simp only [hover, if_false, if_true]
        exact maxLoop_KM _ _ (E.legal_moves b)
          (fun m _ a' b' hab' => ih (E.push b m) a' b' hab' false) ⊥ a bt bot_le hab
      | false =>
        simp only [hover, if_false, Bool.false_eq_true]
        exact minLoop_KM _ _ (E.legal_moves b)
          (fun m _ a' b' hab' => ih (E.push b m) a' b' hab' true) ⊤ a bt le_top hab

/-- Claim C2: for every position, every depth and both roles, the alpha-beta
pruned search called with the full window `(-inf, +inf)` returns exactly the
score of the unpruned full minimax over the same tree: pruning never changes
the returned value. -/
theorem minimax_alpha_beta_full_window (E : Engine) (d : Nat) (b : E.Pos)
    (is_maximizing : Bool) :
    minimax_alpha_beta E d b ⊥ ⊤ is_maximizing = minimaxFull E d b is_maximizing := by
  have hKM := minimax_alpha_beta_KM E d b ⊥ ⊤ bot_lt_top is_maximizing
  by_cases hbot : minimax_alpha_beta E d b ⊥ ⊤ is_maximizing = ⊥
  · have hv : minimaxFull E d b is_maximizing ≤ ⊥ := by
      have h := hKM.1 (le_of_eq hbot)
      rwa [hbot] at h
    rw [hbot, le_bot_iff.mp hv]
  · by_cases htop : minimax_alpha_beta E d b ⊥ ⊤ is_maximizing = ⊤
    · have hv : (⊤ : Score) ≤ minimaxFull E d b is_maximizing := by
        have h := hKM.2.2 (le_of_eq htop.symm)
        rwa [htop] at h
      rw [htop, top_le_iff.mp hv]
    · exact hKM.2.1 (bot_lt_iff_ne_bot.mpr hbot) (lt_top_iff_ne_top.mpr htop)

theorem gbmStep_none (E : Engine) (b : E.Pos) (depth : Nat)
    (st : Option E.Move × Score) (m : E.Move)
    (h : (gbmStep E b depth st m).1 = none) : st.1 = none := by
  simp only [gbmStep] at h
  by_cases ht : E.turn b = true
  · rw [if_pos ht] at h
    by_cases hlt : st.2 < rootEval E b depth m
    · rw [if_pos hlt] at h; exact absurd h (by simp)
    · rwa [if_neg hlt] at h
  · rw [if_neg ht] at h
    by_cases hlt : rootEval E b depth m < st.2
    · rw [if_pos hlt] at h; exact absurd h (by simp)
    · rwa [if_neg hlt] at h

theorem gbmFold_none (E : Engine) (b : E.Pos) (depth : Nat) :
    ∀ (ms : List E.Move) (st : Option E.Move × Score),
      (ms.foldl (gbmStep E b depth) st).1 = none → st.1 = none := by
  intro ms
  induction ms with
  | nil => intro st h; exact h
  | cons m ms ih => intro st h; exact gbmStep_none E b depth st m (ih _ h)

theorem gbmFold_none_iff_white (E : Engine) (b : E.Pos) (depth : Nat)
    (ht : E.turn b = true) :
    ∀ (ms : List E.Move),
      ((ms.foldl (gbmStep E b depth) (none, (⊥ : Score))).1 = none ↔
        ∀ m ∈ ms, rootEval E b depth m = ⊥) := by
  intro ms
  induction ms with
  | nil => simp
  | cons m ms ih =>
    rw [List.foldl_cons]
    by_cases hev : rootEval E b depth m = ⊥
    · have hstep : gbmStep E b depth (none, (⊥ : Score)) m = (none, (⊥ : Score)) := by
        simp [gbmStep, ht, hev]
      rw [hstep, ih]
      constructor
      · intro hall m' hm'
        rcases List.mem_cons.mp hm' with hm' | hm'
        · rw [hm']; exact hev
        · exact hall m' hm'
      · intro hall m' hm'; exact hall m' (List.mem_cons_of_mem m hm')
    · have hlt : (⊥ : Score) < rootEval E b depth m := bot_lt_iff_ne_bot.mpr hev
      have hstep : gbmStep E b depth (none, (⊥ : Score)) m =
          (some m, rootEval E b depth m) := by
        simp [gbmStep, ht, hlt]
      rw [hstep]
      constructor
      · intro h
        have hnone := gbmFold_none E b depth ms _ h
        exact absurd hnone (by simp)
      · intro hall
        exact absurd (hall m (List.mem_cons_self m ms)) hev

theorem gbmFold_none_iff_black (E : Engine) (b : E.Pos) (depth : Nat)
    (ht : E.turn b = false) :
    ∀ (ms : List E.Move),
      ((ms.foldl (gbmStep E b depth) (none, (⊤ : Score))).1 = none ↔
        ∀ m ∈ ms, rootEval E b depth m = ⊤) := by
  intro ms
  induction ms with
  | nil => simp
  | cons m ms ih =>
    rw [List.foldl_cons]
    by_cases hev : rootEval E b depth m = ⊤
    · have hstep : gbmStep E b depth (none, (⊤ : Score)) m = (none, (⊤ : Score)) := by
        simp [gbmStep, ht, hev]
      rw [hstep, ih]
      constructor
      · intro hall m' hm'
        rcases List.mem_cons.mp hm' with hm' | hm'
        · rw [hm']; exact hev
        · exact hall m' hm'
      · intro hall m' hm'; exact hall m' (List.mem_cons_of_mem m hm')
    · have hlt : rootEval E b depth m < ⊤ := lt_top_iff_ne_top.mpr hev
      have hstep : gbmStep E b depth (none, (⊤ : Score)) m =
          (some m, rootEval E b depth m) := by
        simp [gbmStep, ht, hlt]
      rw [hstep]
      constructor
      · intro h
        have hnone := gbmFold_none E b depth ms _ h
        exact absurd hnone (by simp)
      · intro hall
        exact absurd (hall m (List.mem_cons_self m ms)) hev

/-- Under the rules-engine fact that pushing a move flips the side to move,
the role `get_best_move` passes to the child search equals the root's own
role: `not board.turn` is evaluated after `board.push(move)`, so the intended
flip cancels out. -/
theorem rootEval_same_role (E : Engine) (b : E.Pos) (depth : Nat) (m : E.Move)
    (halt : E.turn (E.push b m) = !E.turn b) :
    rootEval E b depth m =
      minimax_alpha_beta E (depth - 1) (E.push b m) ⊥ ⊤ (E.turn b) := by
  rw [rootEval, halt, Bool.not_not]

/-- Claim C1, refuted on the code: `get_best_move` searches each root child
with `is_maximizing = not board.turn` computed after `board.push`, which is
the root's own role rather than the flipped role the spec (and the code's own
comment) prescribe.  On engine `CE` (root `0`, White to move, two candidate
moves whose Black-to-move children lead to leaves worth `{0, 5}` and
`{3, 4}`), the child of move `0` is Black to move yet is searched as
MAXIMIZING, scoring `5` instead of the flipped-role `0`; the code therefore
picks move `0` while the spec's flipped-role scan picks move `1`. -/
theorem get_best_move_role_not_flipped :
    CE.turn 0 = true ∧ CE.turn (CE.push 0 0) = false ∧
    (!CE.turn (CE.push 0 0)) = CE.turn 0 ∧
    rootEval CE 0 2 0 = Score.ofInt 5 ∧
    rootEvalFlipped CE 0 2 0 = Score.ofInt 0 ∧
    get_best_move CE 0 2 [0, 1] = some 0 ∧
    chooseMoveFlipped CE 0 2 [0, 1] = some 1 := by decide

/-- Claim C3, refuted as stated: position `12` of engine `CE` has exactly one
legal move, yet `get_best_move` at depth 2 returns no move: the move's search
score is `-inf`, which never strictly beats the `-inf` sentinel `max_eval`
starts at for White. -/
theorem get_best_move_none_despite_legal_move :
    CE.legal_moves 12 = [0] ∧ CE.legal_moves 12 ≠ [] ∧
    get_best_move CE 12 2 [0] = none := by decide

/-- Claim C3 amended: `get_best_move` returns no move iff the position has no
legal moves, or White is to move and every candidate's search score is `-inf`,
or Black is to move and every candidate's search score is `+inf` (the strict
comparison against the sentinel never fires in those cases). -/
theorem get_best_move_none_iff (E : Engine) (b : E.Pos) (depth : Nat)
    (shuffled : List E.Move) (hperm : shuffled.Perm (E.legal_moves b)) :
    (get_best_move E b depth shuffled = none ↔
      E.legal_moves b = [] ∨
      (E.turn b = true ∧ ∀ m ∈ E.legal_moves b, rootEval E b depth m = ⊥) ∨
      (E.turn b = false ∧ ∀ m ∈ E.legal_moves b, rootEval E b depth m = ⊤)) := by
  unfold get_best_move gbmInit
  by_cases ht : E.turn b = true
  · rw [if_pos ht, gbmFold_none_iff_white E b depth ht shuffled]
    constructor
    · intro hall
      exact Or.inr (Or.inl ⟨ht, fun m hm => hall m (hperm.mem_iff.mpr hm)⟩)
    · rintro (hnil | ⟨_, hall⟩ | ⟨hf, _⟩)
      · intro m hm
        exact absurd (hperm.mem_iff.mp hm) (by rw [hnil]; simp)
      · intro m hm; exact hall m (hperm.mem_iff.mp hm)
      · rw [ht] at hf; exact absurd hf (by simp)
  · have htf : E.turn b = false := by
      cases h : E.turn b
      · rfl
      · exact absurd h ht
    rw [if_neg ht, gbmFold_none_iff_black E b depth htf shuffled]
    constructor
    · intro hall
      exact Or.inr (Or.inr ⟨htf, fun m hm => hall m (hperm.mem_iff.mpr hm)⟩)
    · rintro (hnil | ⟨hf, _⟩ | ⟨_, hall⟩)
      · intro m hm
        exact absurd (hperm.mem_iff.mp hm) (by rw [hnil]; simp)
      · exact absurd hf ht
      · intro m hm; exact hall m (hperm.mem_iff.mp hm)

/-- Witness for the amended C3 at the concrete input: position `12` of `CE`
(one legal move whose score is `-inf`, White to move). -/
theorem get_best_move_none_iff_witness :
    (get_best_move CE 12 2 [0] = none ↔
      CE.legal_moves 12 = [] ∨
      (CE.turn 12 = true ∧ ∀ m ∈ CE.legal_moves 12, rootEval CE 12 2 m = ⊥) ∨
      (CE.turn 12 = false ∧ ∀ m ∈ CE.legal_moves 12, rootEval CE 12 2 m = ⊤)) :=
  get_best_move_none_iff CE 12 2 [0] (List.Perm.refl [0])

/-- Claim C4, refuted as stated: position `12` of engine `CE` has exactly one
legal move `0` and yet `get_best_move` at depth 2 does not return it. -/
theorem get_best_move_single_not_returned :
    CE.legal_moves 12 = [0] ∧ get_best_move CE 12 2 [0] ≠ some 0 := by decide

/-- Claim C4 amended: on a position with exactly one legal move,
`get_best_move` returns that move unless the move's search score equals the
sentinel `max_eval` starts at (`-inf` with White to move, `+inf` with Black),
in which case it returns no move. -/
theorem get_best_move_single_move (E : Engine) (b : E.Pos) (depth : Nat)
    (m : E.Move) (h : E.legal_moves b = [m]) (shuffled : List E.Move)
    (hperm : shuffled.Perm (E.legal_moves b)) :
    get_best_move E b depth shuffled =
      (if E.turn b = true then
        (if rootEval E b depth m = ⊥ then none else some m)
      else
        (if rootEval E b depth m = ⊤ then none else some m)) := by
  rw [h] at hperm
  have hsh : shuffled = [m] := List.perm_singleton.mp hperm
  subst hsh
  unfold get_best_move gbmInit
  by_cases ht : E.turn b = true
  · rw [if_pos ht, if_pos ht]
    by_cases hev : rootEval E b depth m = ⊥
    · rw [if_pos hev]
      simp [gbmStep, ht, hev]
    · rw [if_neg hev]
      simp [gbmStep, ht, bot_lt_iff_ne_bot.mpr hev]
  · rw [if_neg ht, if_neg ht]
    by_cases hev : rootEval E b depth m = ⊤
    · rw [if_pos hev]
      simp [gbmStep, ht, hev]
    · rw [if_neg hev]
      simp [gbmStep, ht, lt_top_iff_ne_top.mpr hev]

/-- Witness for the amended C4: position `13` of `CE` (Black to move, single
legal move scoring `-inf`, which is not the Black sentinel `+inf`), where the
single move is returned. -/
theorem get_best_move_single_move_witness :
    CE.legal_moves 13 = [0] ∧
      get_best_move CE 13 1 [0] =
        (if CE.turn 13 = true then
          (if rootEval CE 13 1 0 = ⊥ then none else some 0)
        else
          (if rootEval CE 13 1 0 = ⊤ then none else some 0)) ∧
      get_best_move CE 13 1 [0] = some 0 :=
  ⟨by decide,
    get_best_move_single_move CE 13 1 0 (by decide) [0] (List.Perm.refl [0]),
    by decide⟩

end ChessAI
